import Mathlib

set_option maxRecDepth 8000

namespace Pkg

/-- Byte strings are lists of naturals; each entry is a byte value (0..255). -/
abbrev Bytes := List Nat

/-!  SHA-256, an executable model of Python's `hashlib.sha256` as used by
`file_checksum` in `tools/bin/package_application.py`. -/

/-- Truncation to a 32-bit word: `n % 2^32`. -/
def w32 (n : Nat) : Nat := n % 4294967296

/-- Right rotation of a 32-bit word `x` (assumed `< 2^32`) by `n` places. -/
def rotr32 (n x : Nat) : Nat := x / 2 ^ n + x % 2 ^ n * 2 ^ (32 - n)

/-- Bitwise complement of a 32-bit word `x` (assumed `< 2^32`). -/
def not32 (x : Nat) : Nat := 4294967295 - x

/-- SHA-256 choice function. -/
def ch (x y z : Nat) : Nat := (x &&& y) ^^^ (not32 x &&& z)

/-- SHA-256 majority function. -/
def maj (x y z : Nat) : Nat := (x &&& y) ^^^ (x &&& z) ^^^ (y &&& z)

/-- SHA-256 Σ₀. -/
def bigSigma0 (x : Nat) : Nat := rotr32 2 x ^^^ rotr32 13 x ^^^ rotr32 22 x

/-- SHA-256 Σ₁. -/
def bigSigma1 (x : Nat) : Nat := rotr32 6 x ^^^ rotr32 11 x ^^^ rotr32 25 x

/-- SHA-256 σ₀. -/
def smallSigma0 (x : Nat) : Nat := rotr32 7 x ^^^ rotr32 18 x ^^^ x / 2 ^ 3

/-- SHA-256 σ₁. -/
def smallSigma1 (x : Nat) : Nat := rotr32 17 x ^^^ rotr32 19 x ^^^ x / 2 ^ 10

/-- The 64 SHA-256 round constants (FIPS 180-2), written in decimal. -/
def k256 : List Nat :=
  [1116352408, 1899447441, 3049323471, 3921009573, 961987163, 1508970993,
   2453635748, 2870763221, 3624381080, 310598401, 607225278, 1426881987,
   1925078388, 2162078206, 2614888103, 3248222580, 3835390401, 4022224774,
   264347078, 604807628, 770255983, 1249150122, 1555081692, 1996064986,
   2554220882, 2821834349, 2952996808, 3210313671, 3336571891, 3584528711,
   113926993, 338241895, 666307205, 773529912, 1294757372, 1396182291,
   1695183700, 1986661051, 2177026350, 2456956037, 2730485921, 2820302411,
   3259730800, 3345764771, 3516065817, 3600352804, 4094571909, 275423344,
   430227734, 506948616, 659060556, 883997877, 958139571, 1322822218,
   1537002063, 1747873779, 1955562222, 2024104815, 2227730452, 2361852424,
   2428436474, 2756734187, 3204031479, 3329325298]

/-- The eight 32-bit words of SHA-256 working state. -/
structure S8 where
  a : Nat
  b : Nat
  c : Nat
  d : Nat
  e : Nat
  f : Nat
  g : Nat
  h : Nat

/-- SHA-256 initial hash value (FIPS 180-2), written in decimal. -/
def sha256init : S8 :=
  ⟨1779033703, 3144134277, 1013904242, 2773480762,
   1359893119, 2600822924, 528734635, 1541459225⟩

/-- One SHA-256 compression round; `kw` is the (wrapped) sum of the round
constant and the schedule word. -/
def sha256round (st : S8) (kw : Nat) : S8 :=
  let t1 := w32 (st.h + bigSigma1 st.e + ch st.e st.f st.g + kw)
  let t2 := w32 (bigSigma0 st.a + maj st.a st.b st.c)
  ⟨w32 (t1 + t2), st.a, st.b, st.c, w32 (st.d + t1), st.e, st.f, st.g⟩

/-- Extend a message schedule by one word. -/
def scheduleStep (w : List Nat) : List Nat :=
  let n := w.length
  w ++ [w32 (smallSigma1 (w.getD (n - 2) 0) + w.getD (n - 7) 0 +
             smallSigma0 (w.getD (n - 15) 0) + w.getD (n - 16) 0)]

/-- Iterate `scheduleStep` `k` times. -/
def schedule : Nat → List Nat → List Nat
  | 0, w => w
  | k + 1, w => schedule k (scheduleStep w)

/-- Compress one 16-word block into the state. -/
def compressWords (st : S8) (block : List Nat) : S8 :=
  let ws := schedule 48 block
  let t := (k256.zip ws).foldl (fun s kw => sha256round s (w32 (kw.1 + kw.2))) st
  ⟨w32 (st.a + t.a), w32 (st.b + t.b), w32 (st.c + t.c), w32 (st.d + t.d),
   w32 (st.e + t.e), w32 (st.f + t.f), w32 (st.g + t.g), w32 (st.h + t.h)⟩

/-- `k` bytes of `n`, big-endian. -/
def beBytes : Nat → Nat → Bytes
  | 0, _ => []
  | k + 1, n => beBytes k (n / 256) ++ [n % 256]

/-- SHA-256 padding: append `0x80`, zeros, and the 64-bit big-endian bit length,
reaching a multiple of 64 bytes. -/
def padMessage (msg : Bytes) : Bytes :=
  msg ++ 128 :: (List.replicate ((119 - msg.length % 64) % 64) 0 ++ beBytes 8 (8 * msg.length))

/-- Group bytes into 32-bit big-endian words. -/
def toWords : Bytes → List Nat
  | b0 :: b1 :: b2 :: b3 :: rest => (((b0 * 256 + b1) * 256 + b2) * 256 + b3) :: toWords rest
  | _ => []

/-- Fold the compression function over consecutive 16-word blocks (the padded
input is always a whole number of blocks). -/
def processBlocks (st : S8) : List Nat → S8
  | w0 :: w1 :: w2 :: w3 :: w4 :: w5 :: w6 :: w7 ::
    w8 :: w9 :: w10 :: w11 :: w12 :: w13 :: w14 :: w15 :: rest =>
      processBlocks
        (compressWords st [w0, w1, w2, w3, w4, w5, w6, w7, w8, w9, w10, w11, w12, w13, w14, w15])
        rest
  | _ => st

/-- SHA-256 digest: 32 raw bytes. -/
def sha256 (msg : Bytes) : Bytes :=
  let st := processBlocks sha256init (toWords (padMessage msg))
  beBytes 4 st.a ++ beBytes 4 st.b ++ beBytes 4 st.c ++ beBytes 4 st.d ++
  beBytes 4 st.e ++ beBytes 4 st.f ++ beBytes 4 st.g ++ beBytes 4 st.h

/-- Lowercase hex digit. -/
def hexChar (n : Nat) : Char := if n < 10 then Char.ofNat (48 + n) else Char.ofNat (87 + n)

/-- Two hex digits of one byte. -/
def byteHex (b : Nat) : List Char := [hexChar (b / 16), hexChar (b % 16)]

/-- `hexdigest()` of a raw digest: the lowercase hexadecimal string. -/
def hexdigest (d : Bytes) : String := String.mk ((d.map byteHex).flatten)

/-- UTF-8 encoding of a string, at code-point granularity (all strings produced
by the tool that reach this function are ASCII, where UTF-8 is the identity on
code points). -/
def utf8Bytes (s : String) : Bytes := s.data.map Char.toNat

/-- `file_checksum(hashlib.sha256, file)`: hex digest of the file's bytes.
The source streams the file in chunks through the hash; chunked update equals
hashing the whole contents, so the model takes the content directly. -/
def file_checksum (content : Bytes) : String := hexdigest (sha256 content)

/- FIPS 180-2 test vectors, checking the executable model. -/

theorem sha256_empty :
    sha256 [] =
      [227, 176, 196, 66, 152, 252, 28, 20, 154, 251, 244, 200, 153, 111, 185, 36,
       39, 174, 65, 228, 100, 155, 147, 76, 164, 149, 153, 27, 120, 82, 184, 85] := by
  decide

theorem sha256_abc :
    sha256 [97, 98, 99] =
      [186, 120, 22, 191, 143, 1, 207, 234, 65, 65, 64, 222, 93, 174, 34, 35,
       176, 3, 97, 163, 150, 23, 122, 156, 180, 16, 255, 97, 242, 0, 21, 173] := by
  decide

/-!  Filesystem model.  A directory's contents are a forest of named entries;
file contents are byte strings.  `FSForest` is a specialised list so that all
walks are structural recursions (mirroring `os.walk`). -/

mutual
inductive FSTree where
  | file (name : String) (content : Bytes)
  | dir (name : String) (children : FSForest)
inductive FSForest where
  | nil
  | cons (t : FSTree) (ts : FSForest)
end

/-- Build a forest from a list of trees (notation helper for concrete inputs). -/
def forest : List FSTree → FSForest
  | [] => .nil
  | t :: ts => .cons t (forest ts)

/-- Append one entry at the end of a forest (directory listing order). -/
def appendTree (t : FSTree) : FSForest → FSForest
  | .nil => .cons t .nil
  | .cons s rest => .cons s (appendTree t rest)

/-- All files in a forest: (path segments relative to the forest root, content).
This is the reference enumeration the walk-based functions are compared to. -/
def filesOf : FSForest → List (List String × Bytes)
  | .nil => []
  | .cons (.file n c) rest => ([n], c) :: filesOf rest
  | .cons (.dir d cs) rest => (filesOf cs).map (fun x => (d :: x.1, x.2)) ++ filesOf rest

/-- Join path segments with forward slashes.  On win32 the source rewrites
backslashes to `/` before slicing, and on POSIX `os.path.join`/`os.path.relpath`
use `/`, so relative paths are always forward-slash joined. -/
def joinPath : List String → String
  | [] => ""
  | [s] => s
  | s :: r :: t => s ++ "/" ++ joinPath (r :: t)

/-- `str.startswith('.')`. -/
def startsWithDot (s : String) : Bool :=
  match s.data with
  | c :: _ => decide (c = '.')
  | [] => false

/-- A directory-entry name as produced by a real `os.walk` never contains a
path separator. -/
def cleanName (s : String) : Bool := decide ('/' ∉ s.data)

/-- Every name in the forest is separator-free (true of any real directory
tree; `os.walk` basenames cannot contain `/`). -/
def namesOk : FSForest → Bool
  | .nil => true
  | .cons (.file n _) rest => cleanName n && namesOk rest
  | .cons (.dir d cs) rest => cleanName d && namesOk cs && namesOk rest

/-- The file name (last path segment). -/
def lastName (p : List String) : String := (p.getLast?).getD ""

/-- The basename of the directory that directly contains the file at path `p`
under a root directory whose basename is `dn`. -/
def parentOf (dn : String) (p : List String) : String := (p.dropLast.getLast?).getD dn

/-!  `hash_dir(target)`: walks the tree; for each regular file it checks
`not fl.startswith('.') and not os.path.basename(path).startswith('.')`
(`path` is the directory currently being walked), and records
`relative path ↦ file_checksum`.  The accumulator `rel` is the path of the
walked directory relative to the target; `dirName` is its basename (initially
the target's own basename).  `os.walk` emits a directory's file list before
descending; the result is a `dict`, so entry order is irrelevant and the
model interleaves subtree results at the point the subdirectory is met. -/

def hashWalk (dirName : String) (rel : List String) : FSForest → List (String × String)
  | .nil => []
  | .cons (.file fl c) rest =>
      (if !startsWithDot fl && !startsWithDot dirName
       then [(joinPath (rel ++ [fl]), file_checksum c)] else [])
      ++ hashWalk dirName rel rest
  | .cons (.dir d cs) rest => hashWalk d (rel ++ [d]) cs ++ hashWalk dirName rel rest

/-- `hash_dir(target)`; `targetName` is `os.path.basename(target)`. -/
def hash_dir (targetName : String) (root : FSForest) : List (String × String) :=
  hashWalk targetName [] root

/-!  `scan_for_cr(path)` and `pack_package(app_root, app_name)`. -/

/-- `fl.endswith(ext)`. -/
def endsWithExt (ext : String) (fl : String) : Bool := ext.data.isSuffixOf fl.data

/-- `fl.endswith(('.py', '.sh'))`. -/
def scanExt (fl : String) : Bool := endsWithExt ".py" fl || endsWithExt ".sh" fl

/-- `b'\r' in content`. -/
def hasCR (c : Bytes) : Bool := decide (13 ∈ c)

/-- `content.replace(b'\r', b'')`: drop every carriage-return byte. -/
def stripCR (c : Bytes) : Bytes := c.filter (fun b => decide (b ≠ 13))

/-- The walk inside `scan_for_cr`: for every file whose name ends in `.py` or
`.sh` and whose bytes contain a carriage return, record
(original path, stripped bytes); the stripped bytes live in a fresh temporary
file outside the tree, which the model represents by its content. -/
def scanWalk (rel : List String) : FSForest → List (List String × Bytes)
  | .nil => []
  | .cons (.file fl c) rest =>
      (if scanExt fl && hasCR c then [(rel ++ [fl], stripCR c)] else []) ++ scanWalk rel rest
  | .cons (.dir d cs) rest => scanWalk (rel ++ [d]) cs ++ scanWalk rel rest

/-- `scan_for_cr(path)` over the app root; paths are relative to the root
(the source uses absolute paths, with the same root for every file). -/
def scan_for_cr (root : FSForest) : List (List String × Bytes) := scanWalk [] root

/-- `next((temp for orig, temp in temp_files if orig == file_path), None)`. -/
def lookupTemp (temps : List (List String × Bytes)) (p : List String) : Option Bytes :=
  (temps.find? (fun x => decide (x.1 = p))).map (fun x => x.2)

/-- The tar-building walk of `pack_package`: every file is added under
`os.path.relpath(file_path, app_root)`, taking the temporary (CR-stripped)
content when a substitution is recorded for the file's path. -/
def packWalk (temps : List (List String × Bytes)) (rel : List String) :
    FSForest → List (String × Bytes)
  | .nil => []
  | .cons (.file fl c) rest =>
      (joinPath (rel ++ [fl]),
        match lookupTemp temps (rel ++ [fl]) with
        | some t => t
        | none => c) :: packWalk temps rel rest
  | .cons (.dir d cs) rest => packWalk temps (rel ++ [d]) cs ++ packWalk temps rel rest

/-- Result of `pack_package`: the final artifact name, its entries, and the
temporary files still existing when the function returns (the source removes
every recorded temporary at the end; gzip compression of the tar stream and
deletion of the intermediate `.tar` are byte-level reencodings that keep the
entry list). -/
structure PackResult where
  gzName : String
  archive : List (String × Bytes)
  tempsRemaining : List (List String × Bytes)

/-- `pack_package(app_root, app_name)`. -/
def pack_package (app_root : FSForest) (app_name : String) : PackResult :=
  let temps := scan_for_cr app_root
  ⟨app_name ++ ".tar.gz", packWalk temps [] app_root,
   temps.filter (fun t => decide (t ∉ temps))⟩

/-!  `clean_bytecode_files(app_root)`.  `BYTE_CODE_FILES` is the regex
`^.*/.(pyc|pyo|pyd)$` (the inline comment records the previous pattern
`^.*\.(pyc|pyo|pyd)$`): it matches a name exactly when the name has at least
5 characters, the 5th character from the end is `/`, and the last three are
`pyc`, `pyo` or `pyd` (`.` matches any single character).
`BYTE_CODE_FOLDERS` is `^(__pycache__)$`, an exact match. -/

def extPycList : List (List Char) := [['p', 'y', 'c'], ['p', 'y', 'o'], ['p', 'y', 'd']]

/-- `BYTE_CODE_FILES.match(name)` for a directory-entry name. -/
def byteCodeFileMatch (s : String) : Bool :=
  let cs := s.data
  let n := cs.length
  decide (5 ≤ n) && decide (cs.getD (n - 5) ' ' = '/') &&
    decide (cs.drop (n - 3) ∈ extPycList)

/-- `BYTE_CODE_FOLDERS.match(name)`. -/
def byteCodeFolderMatch (s : String) : Bool := decide (s = "__pycache__")

/-- `clean_bytecode_files(app_root)`: removes each walked file whose basename
matches `BYTE_CODE_FILES` and `rmtree`s each directory whose basename matches
`BYTE_CODE_FOLDERS` (a removed directory is not walked further). -/
def clean_bytecode_files : FSForest → FSForest
  | .nil => .nil
  | .cons (.file fl c) rest =>
      if byteCodeFileMatch fl then clean_bytecode_files rest
      else .cons (.file fl c) (clean_bytecode_files rest)
  | .cons (.dir d cs) rest =>
      if byteCodeFolderMatch d then clean_bytecode_files rest
      else .cons (.dir d (clean_bytecode_files cs)) (clean_bytecode_files rest)

/-!  METADATA folder operations of the orchestrator. -/

/-- Is there a top-level directory named `n`?  (`os.path.exists` of
`<root>/METADATA`, which in every run of the tool is either absent or a
directory.) -/
def hasDir (n : String) : FSForest → Bool
  | .nil => false
  | .cons (.dir d _) rest => decide (d = n) || hasDir n rest
  | .cons _ rest => hasDir n rest

/-- `os.makedirs(app_metadata_folder)` guarded by `os.path.exists`. -/
def ensureMetadataDir (root : FSForest) : FSForest :=
  if hasDir "METADATA" root then root else appendTree (.dir "METADATA" .nil) root

/-- `clean_manifest_folder(app_metadata_folder)`: `os.remove`s every file and
`rmtree`s every directory directly inside `<root>/METADATA`, i.e. empties the
METADATA directory (a real tree has at most one). -/
def clean_manifest_folder : FSForest → FSForest
  | .nil => .nil
  | .cons (.dir d cs) rest =>
      if d = "METADATA" then .cons (.dir d .nil) (clean_manifest_folder rest)
      else .cons (.dir d cs) (clean_manifest_folder rest)
  | .cons t rest => .cons t (clean_manifest_folder rest)

/-- Create or overwrite the file `fname` inside a directory listing. -/
def upsertFile (fname : String) (content : Bytes) : FSForest → FSForest
  | .nil => .cons (.file fname content) .nil
  | .cons (.file n c) rest =>
      if n = fname then .cons (.file n content) rest
      else .cons (.file n c) (upsertFile fname content rest)
  | .cons t rest => .cons t (upsertFile fname content rest)

/-- Write a file into `<root>/METADATA` (`open(..., 'w')` / `open(..., 'wb')`
on a path inside the metadata folder). -/
def writeMetadataFile (fname : String) (content : Bytes) : FSForest → FSForest
  | .nil => .nil
  | .cons (.dir d cs) rest =>
      if d = "METADATA" then .cons (.dir d (upsertFile fname content cs)) rest
      else .cons (.dir d cs) (writeMetadataFile fname content rest)
  | .cons t rest => .cons t (writeMetadataFile fname content rest)

/-!  `create_signature(meta_data_folder, pkey)`. -/

/-- An opaque handle to a loaded OpenSSL private key: `crypto.sign(pkey, data,
'sha256')` is an external primitive, modelled as an arbitrary function of the
signed data. -/
structure PrivateKey where
  sign : Bytes → Bytes

/-- `create_signature`: the signature file's bytes, as a function of the
manifest file's bytes (the function reads `METADATA/MANIFEST.json`, which the
orchestrator has just written).  `checksum` is the UTF-8 encoding of the hex
digest string returned by `file_checksum`. -/
def create_signature (pkey : Option PrivateKey) (manifestContent : Bytes) : Bytes :=
  let checksum := utf8Bytes (file_checksum manifestContent)
  match pkey with
  | some k => k.sign checksum
  | none => checksum

/-!  The descriptor (`package.ini`) and the manifest. -/

/-- One parsed descriptor section.  Fields the source reads unconditionally
are plain; fields read with a fallback or guarded by `has_option` are
optional.  (`uuid` is read inside `try/except KeyError`.) -/
structure IniSection where
  name : String
  uuid : Option String
  vendor : String
  notes : String
  version_major : Int
  version_minor : Int
  version_patch : Option Int
  firmware_major : Int
  firmware_minor : Int
  restart : Bool
  reboot : Bool
  auto_start : Option Bool
  app_type : Option Int

/-- The `app` dictionary of the manifest. -/
structure AppManifest where
  name : String
  uuid : String
  vendor : String
  notes : String
  version_major : Int
  version_minor : Int
  version_patch : Int
  firmware_major : Int
  firmware_minor : Int
  restart : Bool
  reboot : Bool
  date : String
  auto_start : Option Bool
  app_type : Option Int
  files : List (String × String)

/-- The `data` dictionary written to MANIFEST.json: `pmf` block plus `app`. -/
structure ManifestData where
  pmf_version_major : Int
  pmf_version_minor : Int
  app : AppManifest

/-!  Rendering of `json.dumps(data, indent=4, sort_keys=True)`.  Keys below
are listed in sorted order, matching `sort_keys=True`; `indent=4` produces the
newline/indent layout; the default separators are `', '`/`': '` (with a
trailing-space-free `',\n'` between items because of the indent). -/

/-- Four lowercase hex digits. -/
def hex4 (n : Nat) : List Char :=
  [hexChar (n / 4096 % 16), hexChar (n / 256 % 16), hexChar (n / 16 % 16), hexChar (n % 16)]

/-- JSON string escaping as `json.dumps` performs it (`ensure_ascii=True`). -/
def escapeJsonChar (c : Char) : List Char :=
  let n := c.toNat
  if c = '"' then ['\\', '"']
  else if c = '\\' then ['\\', '\\']
  else if n = 8 then ['\\', 'b']
  else if n = 9 then ['\\', 't']
  else if n = 10 then ['\\', 'n']
  else if n = 12 then ['\\', 'f']
  else if n = 13 then ['\\', 'r']
  else if n < 32 then '\\' :: 'u' :: hex4 n
  else if n < 127 then [c]
  else if n < 65536 then '\\' :: 'u' :: hex4 n
  else ('\\' :: 'u' :: hex4 (55296 + (n - 65536) / 1024)) ++
       ('\\' :: 'u' :: hex4 (56320 + (n - 65536) % 1024))

/-- A JSON string literal. -/
def jsonStr (s : String) : String :=
  "\"" ++ String.mk ((s.data.map escapeJsonChar).flatten) ++ "\""

/-- A JSON integer literal. -/
def jsonInt (i : Int) : String := toString i

/-- A JSON boolean literal. -/
def jsonBool (b : Bool) : String := cond b "true" "false"

/-- Join with a separator. -/
def sepJoin (sep : String) : List String → String
  | [] => ""
  | [s] => s
  | s :: r :: t => s ++ sep ++ sepJoin sep (r :: t)

/-- Stable insertion of an entry into a key-sorted association list. -/
def insertByKey (x : String × String) : List (String × String) → List (String × String)
  | [] => [x]
  | y :: ys => if x.1 < y.1 then x :: y :: ys else y :: insertByKey x ys

/-- Sort an association list by key (Python compares strings by code points,
as `<` on `String` does). -/
def sortByKey (l : List (String × String)) : List (String × String) :=
  l.foldr insertByKey []

/-- The `"files"` object at nesting depth 2. -/
def filesBlock (l : List (String × String)) : String :=
  match sortByKey l with
  | [] => "\x7b\x7d"
  | fs => "\x7b\n" ++
      sepJoin ",\n" (fs.map (fun kv => "            " ++ jsonStr kv.1 ++ ": " ++ jsonStr kv.2)) ++
      "\n        \x7d"

/-- The key/value lines of the `"app"` object, in sorted key order; the
optional keys are written only when the descriptor defined them. -/
def appLines (a : AppManifest) : List String :=
  (match a.app_type with
   | some t => ["\"app_type\": " ++ jsonInt t]
   | none => []) ++
  (match a.auto_start with
   | some b => ["\"auto_start\": " ++ jsonBool b]
   | none => []) ++
  ["\"date\": " ++ jsonStr a.date,
   "\"files\": " ++ filesBlock a.files,
   "\"firmware_major\": " ++ jsonInt a.firmware_major,
   "\"firmware_minor\": " ++ jsonInt a.firmware_minor,
   "\"name\": " ++ jsonStr a.name,
   "\"notes\": " ++ jsonStr a.notes,
   "\"reboot\": " ++ jsonBool a.reboot,
   "\"restart\": " ++ jsonBool a.restart,
   "\"uuid\": " ++ jsonStr a.uuid,
   "\"vendor\": " ++ jsonStr a.vendor,
   "\"version_major\": " ++ jsonInt a.version_major,
   "\"version_minor\": " ++ jsonInt a.version_minor,
   "\"version_patch\": " ++ jsonInt a.version_patch]

/-- `json.dumps(data, indent=4, sort_keys=True)`. -/
def manifestJson (d : ManifestData) : String :=
  "\x7b\n    \"app\": \x7b\n" ++
  sepJoin ",\n" ((appLines d.app).map (fun s => "        " ++ s)) ++
  "\n    \x7d,\n    \"pmf\": \x7b\n        \"version_major\": " ++
  jsonInt d.pmf_version_major ++
  ",\n        \"version_minor\": " ++ jsonInt d.pmf_version_minor ++
  "\n    \x7d\n\x7d"

/-!  The orchestrator `package_application(app_root, pkey)`.

Inputs the source obtains from the environment are parameters here:
`rootName` is `os.path.basename(os.path.realpath(app_root))`; `root` the app
root's directory tree; `secs` the parsed sections of `<root>/package.ini`
(`configparser.ConfigParser.read` of a missing file yields no sections);
`freshUuid i` / `now i` the values `str(uuid.uuid4())` /
`datetime.datetime.now().isoformat()` would return in iteration `i`. -/

inductive PkgError where
  | assertionError
  | keyErrorUuid
deriving DecidableEq

/-- One loop iteration (lines 150–200 of the source).  On an exception the
mutated tree so far is returned with the error; on success the new tree, the
manifest `data` written, and the artifact `(gz name, entries)` produced by
`pack_package`. -/
def runSection (pkey : Option PrivateKey) (freshUuid now : String) (rootName : String)
    (root : FSForest) (sec : IniSection) :
    Except (FSForest × PkgError) (FSForest × ManifestData × (String × List (String × Bytes))) :=
  if rootName = sec.name then
    let r1 := clean_manifest_folder root
    let r2 := clean_bytecode_files r1
    let finish := fun (u : String) =>
      let app : AppManifest :=
        ⟨sec.name, u, sec.vendor, sec.notes, sec.version_major, sec.version_minor,
         sec.version_patch.getD 0, sec.firmware_major, sec.firmware_minor,
         sec.restart, sec.reboot, now, sec.auto_start, sec.app_type,
         hash_dir rootName r2⟩
      let data : ManifestData := ⟨1, 0, app⟩
      let mbytes := utf8Bytes (manifestJson data)
      let r3 := writeMetadataFile "MANIFEST.json" mbytes r2
      let sig := create_signature pkey mbytes
      let r4 := writeMetadataFile "SIGNATURE.DS" sig r3
      let p := pack_package r4 sec.name
      Except.ok (r4, ⟨1, 0, app⟩, (p.gzName, p.archive))
    match sec.uuid with
    | some u => finish u
    | none =>
      match pkey with
      | some _ => Except.error (r2, PkgError.keyErrorUuid)
      | none => finish freshUuid
  else Except.error (root, PkgError.assertionError)

/-- The observable outcome of a run: the final app-root tree, the manifest
`data` dictionaries written, the artifacts produced, and the exception that
ended the run, if any. -/
structure RunResult where
  root : FSForest
  manifests : List ManifestData
  artifacts : List (String × List (String × Bytes))
  err : Option PkgError

/-- `for section in config.sections(): ...` -/
def runLoop (pkey : Option PrivateKey) (freshUuid now : Nat → String) (rootName : String) :
    Nat → FSForest → List IniSection → RunResult
  | _, root, [] => ⟨root, [], [], none⟩
  | i, root, sec :: rest =>
    match runSection pkey (freshUuid i) (now i) rootName root sec with
    | .error (r, e) => ⟨r, [], [], some e⟩
    | .ok (r, m, art) =>
      let res := runLoop pkey freshUuid now rootName (i + 1) r rest
      ⟨res.root, m :: res.manifests, art :: res.artifacts, res.err⟩

/-- `package_application(app_root, pkey)`: ensure `<root>/METADATA` exists,
then run every descriptor section. -/
def package_application (pkey : Option PrivateKey) (freshUuid now : Nat → String)
    (rootName : String) (root : FSForest) (secs : List IniSection) : RunResult :=
  runLoop pkey freshUuid now rootName 0 (ensureMetadataDir root) secs


/-!  Supporting lemmas: walk characterisations. -/

/-- Every path produced by `filesOf` is nonempty. -/
theorem filesOf_ne_nil (l : FSForest) : ∀ x ∈ filesOf l, x.1 ≠ [] := by
  induction l using filesOf.induct with
  | case1 => simp [filesOf]
  | case2 n c rest ih =>
    simp only [filesOf, List.mem_cons]
    rintro x (rfl | hx)
    · simp
    · exact ih x hx
  | case3 d cs rest ihcs ihrest =>
    simp only [filesOf, List.mem_append, List.mem_map]
    rintro x (⟨y, hy, rfl⟩ | hx)
    · simp
    · exact ihrest x hx

theorem lastName_singleton (n : String) : lastName [n] = n := by simp [lastName]

theorem parentOf_singleton (dn n : String) : parentOf dn [n] = dn := by
  simp [parentOf]

theorem lastName_cons (d : String) (q : List String) (h : q ≠ []) :
    lastName (d :: q) = lastName q := by
  cases q with
  | nil => exact absurd rfl h
  | cons x t => simp [lastName, List.getLast?_cons_cons]

theorem getD_getLast?_cons (x : String) (w : List String) (a b : String) :
    ((x :: w).getLast?).getD a = ((x :: w).getLast?).getD b := by
  induction w generalizing x with
  | nil => simp
  | cons y t ih => rw [List.getLast?_cons_cons]; exact ih y

theorem parentOf_cons (dn d : String) (q : List String) (h : q ≠ []) :
    parentOf dn (d :: q) = parentOf d q := by
  cases q with
  | nil => exact absurd rfl h
  | cons x t =>
    cases t with
    | nil => simp [parentOf]
    | cons y u =>
      show ((d :: x :: y :: u).dropLast.getLast?).getD dn = (((x :: y :: u).dropLast).getLast?).getD d
      rw [show (d :: x :: y :: u).dropLast = d :: (x :: y :: u).dropLast from rfl]
      rw [show (x :: y :: u).dropLast = x :: (y :: u).dropLast from rfl]
      rw [List.getLast?_cons_cons]
      exact getD_getLast?_cons x ((y :: u).dropLast) dn d

/-- The pack walk adds one entry per file of the tree, in enumeration order:
the arcname is the forward-slash relative path, and the entry's bytes are the
temporary (normalised) content when a substitution is recorded for the path,
the file's own bytes otherwise. -/
theorem packWalk_eq (temps : List (List String × Bytes)) (rel : List String) (l : FSForest) :
    packWalk temps rel l = (filesOf l).map (fun x =>
      (joinPath (rel ++ x.1),
        match lookupTemp temps (rel ++ x.1) with
        | some t => t
        | none => x.2)) := by
  induction l using filesOf.induct generalizing rel with
  | case1 => simp [filesOf, packWalk]
  | case2 n c rest ih => simp [filesOf, packWalk, ih]
  | case3 d cs rest ihcs ihrest =>
    simp [filesOf, packWalk, ihcs, ihrest, List.map_map, Function.comp, List.append_assoc]

/-- The CR scan records exactly the files with a scanned extension and a
carriage-return byte, mapping each to its CR-stripped content. -/
theorem scanWalk_eq (rel : List String) (l : FSForest) :
    scanWalk rel l = (filesOf l).filterMap (fun x =>
      if scanExt (lastName x.1) && hasCR x.2 then some (rel ++ x.1, stripCR x.2) else none) := by
  induction l using filesOf.induct generalizing rel with
  | case1 => simp [filesOf, scanWalk]
  | case2 n c rest ih =>
    simp only [filesOf, scanWalk, List.filterMap_cons, ih, lastName_singleton]
    cases hc : scanExt n && hasCR c <;> simp [hc]
  | case3 d cs rest ihcs ihrest =>
    simp only [filesOf, scanWalk, List.filterMap_append, ihcs, ihrest, List.filterMap_map]
    congr 1
    apply List.filterMap_congr
    intro x hx
    have hne := filesOf_ne_nil cs x hx
    simp [Function.comp, lastName_cons _ _ hne, List.append_assoc]

/-- The hash walk records exactly the files whose own name does not start
with a dot and whose immediate parent directory's basename (the target's
basename for top-level files) does not start with a dot. -/
theorem hashWalk_eq (dn : String) (rel : List String) (l : FSForest) :
    hashWalk dn rel l = (filesOf l).filterMap (fun x =>
      if !startsWithDot (lastName x.1) && !startsWithDot (parentOf dn x.1)
      then some (joinPath (rel ++ x.1), file_checksum x.2) else none) := by
  induction l using filesOf.induct generalizing dn rel with
  | case1 => simp [filesOf, hashWalk]
  | case2 n c rest ih =>
    simp only [filesOf, hashWalk, List.filterMap_cons, ih, lastName_singleton, parentOf_singleton]
    cases hc : !startsWithDot n && !startsWithDot dn <;> simp [hc]
  | case3 d cs rest ihcs ihrest =>
    simp only [filesOf, hashWalk, List.filterMap_append, ihcs, ihrest, List.filterMap_map]
    congr 1
    apply List.filterMap_congr
    intro x hx
    have hne := filesOf_ne_nil cs x hx
    simp [Function.comp, lastName_cons _ _ hne, parentOf_cons _ _ _ hne, List.append_assoc]


theorem beBytes_length (k n : Nat) : (beBytes k n).length = k := by
  induction k generalizing n with
  | zero => rfl
  | succ m ih => simp [beBytes, ih]

theorem sha256_length (msg : Bytes) : (sha256 msg).length = 32 := by
  simp [sha256, beBytes_length]

theorem hexdigest_data_length (d : Bytes) : (hexdigest d).data.length = 2 * d.length := by
  simp only [hexdigest]
  induction d with
  | nil => rfl
  | cons b t ih => simp [byteHex] at ih ⊢; omega

theorem utf8Bytes_length (s : String) : (utf8Bytes s).length = s.data.length := by
  simp [utf8Bytes]

theorem joinPath_data_cons₂ (s r : String) (t : List String) :
    (joinPath (s :: r :: t)).data = s.data ++ '/' :: (joinPath (r :: t)).data := by
  show (s ++ "/" ++ joinPath (r :: t)).data = _
  simp [String.data_append]

theorem slash_mem_joinPath (s r : String) (t : List String) :
    '/' ∈ (joinPath (s :: r :: t)).data := by
  rw [joinPath_data_cons₂]; simp

theorem slashSplit (a : List Char) :
    ∀ (b : List Char) (u v : List Char), '/' ∉ a → '/' ∉ b →
      a ++ '/' :: u = b ++ '/' :: v → a = b ∧ u = v := by
  induction a with
  | nil =>
    intro b u v _ hb h
    cases b with
    | nil => simpa using h
    | cons c bs =>
      simp only [List.nil_append, List.cons_append, List.cons.injEq] at h
      exact absurd (h.1 ▸ List.mem_cons_self c bs) (fun hm => hb (h.1 ▸ hm))
  | cons c as ih =>
    intro b u v ha hb h
    cases b with
    | nil =>
      simp only [List.cons_append, List.nil_append, List.cons.injEq] at h
      exact absurd (h.1 ▸ List.mem_cons_self c as) (fun hm => ha (h.1 ▸ hm))
    | cons c' bs =>
      simp only [List.cons_append, List.cons.injEq] at h
      obtain ⟨rfl, h2⟩ := h
      have := ih bs u v (fun hm => ha (List.mem_cons_of_mem _ hm))
        (fun hm => hb (List.mem_cons_of_mem _ hm)) h2
      exact ⟨by rw [this.1], this.2⟩

theorem joinPath_inj : ∀ (p q : List String), p ≠ [] → q ≠ [] →
    (∀ s ∈ p, cleanName s = true) → (∀ s ∈ q, cleanName s = true) →
    joinPath p = joinPath q → p = q := by
  intro p
  induction p with
  | nil => intro q h; exact absurd rfl h
  | cons s p' ih =>
    intro q _ hq hp hqc h
    cases q with
    | nil => exact absurd rfl hq
    | cons s' q' =>
      cases p' with
      | nil =>
        cases q' with
        | nil => simpa using h
        | cons r' t' =>
          exfalso
          have hs : cleanName s = true := hp s (List.mem_cons_self _ _)
          have hsl : '/' ∈ s.data := by
            have hm := slash_mem_joinPath s' r' t'
            rw [← h] at hm
            simpa [joinPath] using hm
          simp [cleanName] at hs
          exact hs hsl
      | cons r t =>
        cases q' with
        | nil =>
          exfalso
          have hs : cleanName s' = true := hqc s' (List.mem_cons_self _ _)
          have hsl : '/' ∈ s'.data := by
            have hm := slash_mem_joinPath s r t
            rw [h] at hm
            simpa [joinPath] using hm
          simp [cleanName] at hs
          exact hs hsl
        | cons r' t' =>
          have hdata : (joinPath (s :: r :: t)).data = (joinPath (s' :: r' :: t')).data := by
            rw [h]
          rw [joinPath_data_cons₂, joinPath_data_cons₂] at hdata
          have hs : '/' ∉ s.data := by
            have := hp s (List.mem_cons_self _ _); simpa [cleanName] using this
          have hs' : '/' ∉ s'.data := by
            have := hqc s' (List.mem_cons_self _ _); simpa [cleanName] using this
          obtain ⟨h1, h2⟩ := slashSplit s.data s'.data _ _ hs hs' hdata
          have hss : s = s' := by
            cases s; cases s'; exact congrArg String.mk h1
          have htail : joinPath (r :: t) = joinPath (r' :: t') := String.ext h2
          have := ih (r' :: t') (by simp) (by simp)
            (fun x hx => hp x (List.mem_cons_of_mem _ hx))
            (fun x hx => hqc x (List.mem_cons_of_mem _ hx)) htail
          rw [hss, this]


/-!  Claim C1. -/

/-- C1 (refuted as stated): with no private key, the unsigned signature file
content is not the manifest's raw SHA-256 digest bytes; at the concrete
manifest bytes `"abc"` the written content differs from the raw digest. -/
theorem claim_c1_counterexample :
    create_signature none (utf8Bytes "abc") ≠ sha256 (utf8Bytes "abc") := by decide

/-- C1 (corrected): with no private key supplied, `create_signature` writes
the UTF-8 encoding of the 64-character lowercase hexadecimal SHA-256 digest
string of the manifest's bytes (`hexdigest().encode('utf-8')`) — 64 bytes,
never the 32 raw digest bytes. -/
theorem claim_c1 (m : Bytes) :
    create_signature none m = utf8Bytes (file_checksum m) ∧
    (sha256 m).length = 32 ∧
    (create_signature none m).length = 64 ∧
    create_signature none m ≠ sha256 m := by
  have hlen : (create_signature none m).length = 64 := by
    show (utf8Bytes (file_checksum m)).length = 64
    rw [utf8Bytes_length]
    show (hexdigest (sha256 m)).data.length = 64
    rw [hexdigest_data_length, sha256_length]
  refine ⟨rfl, sha256_length m, hlen, ?_⟩
  intro hcontra
  rw [hcontra, sha256_length] at hlen
  omega

/-- C1 witness: the theorem applied at the empty manifest. -/
theorem claim_c1_witness : create_signature none [] ≠ sha256 [] := (claim_c1 []).2.2.2


theorem exists_five (B : List Char) (h : B.length = 5) :
    ∃ x0 x1 x2 x3 x4, B = [x0, x1, x2, x3, x4] := by
  rcases B with _ | ⟨x0, B⟩; · simp at h
  rcases B with _ | ⟨x1, B⟩; · simp at h
  rcases B with _ | ⟨x2, B⟩; · simp at h
  rcases B with _ | ⟨x3, B⟩; · simp at h
  rcases B with _ | ⟨x4, B⟩; · simp at h
  rcases B with _ | ⟨x5, B⟩
  · exact ⟨x0, x1, x2, x3, x4, rfl⟩
  · simp only [List.length_cons] at h; omega

theorem getD_append_length (A B : List Char) (d : Char) :
    (A ++ B).getD A.length d = B.headD d := by
  induction A with
  | nil => cases B <;> rfl
  | cons a A ih => rw [List.cons_append, List.length_cons, List.getD_cons_succ]; exact ih

theorem drop_append_two (A : List Char) (x y : Char) (B : List Char) :
    (A ++ x :: y :: B).drop (A.length + 2) = B := by
  induction A with
  | nil => simp
  | cons a A ih =>
    rw [List.cons_append, List.length_cons]
    have h21 : A.length + 1 + 2 = A.length + 2 + 1 := by omega
    rw [h21, List.drop_succ_cons]
    exact ih

/-- `byteCodeFileMatch` recognises exactly the language of the regular
expression `^.*/.(pyc|pyo|pyd)$`. -/
theorem byteCodeFileMatch_iff (s : String) :
    byteCodeFileMatch s = true ↔
      ∃ a c e, e ∈ extPycList ∧ s.data = a ++ '/' :: c :: e := by
  simp only [byteCodeFileMatch, Bool.and_eq_true, decide_eq_true_eq]
  constructor
  · rintro ⟨⟨h5, hslash⟩, hext⟩
    have hB : (s.data.drop (s.data.length - 5)).length = 5 := by
      rw [List.length_drop]; omega
    obtain ⟨x0, x1, x2, x3, x4, hBeq⟩ := exists_five _ hB
    obtain ⟨A, hsplit, hAlen⟩ :
        ∃ A, s.data = A ++ [x0, x1, x2, x3, x4] ∧ A.length = s.data.length - 5 := by
      refine ⟨s.data.take (s.data.length - 5), ?_, ?_⟩
      · conv_lhs => rw [← List.take_append_drop (s.data.length - 5) s.data]
        rw [hBeq]
      · rw [List.length_take]; omega
    have hgs : s.data.getD (s.data.length - 5) ' ' = x0 := by
      rw [hAlen.symm, hsplit, getD_append_length]
      rfl
    rw [hgs] at hslash
    have hdrop : s.data.drop (s.data.length - 3) = [x2, x3, x4] := by
      have h3 : s.data.length - 3 = A.length + 2 := by omega
      rw [h3, hsplit]
      exact drop_append_two A x0 x1 [x2, x3, x4]
    rw [hdrop] at hext
    exact ⟨A, x1, [x2, x3, x4], hext, by rw [hsplit, hslash]⟩
  · rintro ⟨a, c, e, he, hdata⟩
    have he3 : e.length = 3 := by
      simp only [extPycList, List.mem_cons, List.not_mem_nil, or_false] at he
      rcases he with rfl | rfl | rfl <;> rfl
    have hn : s.data.length = a.length + 5 := by
      simp only [hdata, List.length_append, List.length_cons, he3]
    refine ⟨⟨by omega, ?_⟩, ?_⟩
    · have h5 : s.data.length - 5 = a.length := by omega
      rw [h5, hdata, getD_append_length]
      rfl
    · have h3 : s.data.length - 3 = a.length + 2 := by omega
      rw [h3, hdata, drop_append_two]
      exact he

/-- A separator-free name (i.e. any basename `os.walk` can yield) never
matches `BYTE_CODE_FILES`. -/
theorem byteCodeFileMatch_false_of_cleanName (s : String) (h : cleanName s = true) :
    byteCodeFileMatch s = false := by
  cases hm : byteCodeFileMatch s
  · rfl
  · exfalso
    obtain ⟨a, c, e, _, hdata⟩ := (byteCodeFileMatch_iff s).mp hm
    simp only [cleanName, decide_eq_true_eq] at h
    exact h (by rw [hdata]; simp)

/-!  Claim C4. -/

/-- C4 (code bug): `clean_bytecode_files` removes `__pycache__` directories
but no `.pyc`/`.pyo`/`.pyd` file ever: `BYTE_CODE_FILES` demands a `/` five
characters from the end, and a walk basename never contains `/`.  Concretely,
`module.pyc` survives the clean while `__pycache__` is removed; in general no
separator-free name matches. -/
theorem claim_c4 :
    clean_bytecode_files (forest [.file "module.pyc" [0],
        .dir "__pycache__" (forest [.file "module.cpython-39.pyc" [1]]),
        .file "ok.py" [2]])
      = forest [.file "module.pyc" [0], .file "ok.py" [2]]
    ∧ byteCodeFolderMatch "__pycache__" = true
    ∧ (∀ s : String, cleanName s = true → byteCodeFileMatch s = false) :=
  ⟨by rfl, by rfl, byteCodeFileMatch_false_of_cleanName⟩

/-- C4 witness: the general part of the theorem applied at `module.pyc`. -/
theorem claim_c4_witness : byteCodeFileMatch "module.pyc" = false :=
  claim_c4.2.2 "module.pyc" (by decide)


/-!  Claim C5. -/

/-- C5 (refuted as stated): a file inside a hidden directory deeper than its
immediate parent is not omitted — `.hidden/sub/f` appears in the mapping even
though `.hidden` starts with a dot. -/
theorem claim_c5_counterexample :
    (hash_dir "app" (forest [.dir ".hidden" (forest [.dir "sub" (forest [.file "f" [120]])])])).map
        Prod.fst = [".hidden/sub/f"]
    ∧ startsWithDot ".hidden" = true := by decide

/-- C5 (corrected): `hash_dir` omits exactly the files whose own name starts
with a dot or whose *immediate* parent directory's basename (the target's
basename for top-level files) starts with a dot; deeper hidden ancestors do
not exclude a file.  Every key is the file's relative path joined with
forward slashes, and every value the file's hex checksum. -/
theorem claim_c5 (targetName : String) (root : FSForest) (k v : String) :
    (k, v) ∈ hash_dir targetName root ↔
      ∃ p c, (p, c) ∈ filesOf root ∧ startsWithDot (lastName p) = false ∧
        startsWithDot (parentOf targetName p) = false ∧
        k = joinPath p ∧ v = file_checksum c := by
  rw [hash_dir, hashWalk_eq]
  simp only [List.mem_filterMap, List.nil_append]
  constructor
  · rintro ⟨x, hx, hfx⟩
    by_cases hc : !startsWithDot (lastName x.1) && !startsWithDot (parentOf targetName x.1)
    · rw [if_pos hc] at hfx
      simp only [Bool.and_eq_true, Bool.not_eq_true'] at hc
      obtain ⟨h1, h2⟩ := Option.some.inj hfx |> fun h => Prod.mk.inj h
      exact ⟨x.1, x.2, hx, hc.1, hc.2, h1.symm, h2.symm⟩
    · rw [if_neg hc] at hfx
      exact absurd hfx (by simp)
  · rintro ⟨p, c, hpc, h1, h2, rfl, rfl⟩
    refine ⟨(p, c), hpc, ?_⟩
    rw [if_pos]
    simp [h1, h2]

/-!  Claim C9 and the lookup helpers shared by C6/C7. -/

/-- C9 (as claimed): `pack_package` archives every file of the tree — hidden
ones included — under its forward-slash relative path, while `hash_dir` skips
hidden files; so an archive can hold paths that are not manifest keys, e.g.
`.hidden`. -/
theorem claim_c9 :
    (∀ (root : FSForest) (nm : String) (p : List String) (c : Bytes), (p, c) ∈ filesOf root →
        joinPath p ∈ (pack_package root nm).archive.map Prod.fst) ∧
    ((".hidden" : String) ∈
        (pack_package (forest [.file ".hidden" [1], .file "a.py" [2]]) "app").archive.map Prod.fst
      ∧ (".hidden" : String) ∉
        (hash_dir "app" (forest [.file ".hidden" [1], .file "a.py" [2]])).map Prod.fst) := by
  refine ⟨?_, by decide, by decide⟩
  intro root nm p c hpc
  show joinPath p ∈ (packWalk (scan_for_cr root) [] root).map Prod.fst
  rw [packWalk_eq, List.map_map]
  exact List.mem_map.mpr ⟨(p, c), hpc, by simp⟩

/-- C9 witness: the universal part applied at a concrete tree and file. -/
theorem claim_c9_witness :
    joinPath ["a.py"] ∈
      (pack_package (forest [.file ".hidden" [1], .file "a.py" [2]]) "app").archive.map Prod.fst :=
  claim_c9.1 (forest [.file ".hidden" [1], .file "a.py" [2]]) "app" ["a.py"] [2] (by decide)

/-- In a list of pairs with `Nodup` first components, a key determines its
value. -/
theorem nodup_fst_eq {A B : Type} (L : List (A × B)) (hnd : (L.map Prod.fst).Nodup)
    (a : A) (b b' : B) (h1 : (a, b) ∈ L) (h2 : (a, b') ∈ L) : b = b' := by
  induction L with
  | nil => cases h1
  | cons y T ih =>
    rw [List.map_cons, List.nodup_cons] at hnd
    rcases List.mem_cons.mp h1 with rfl | h1'
    · rcases List.mem_cons.mp h2 with he | h2'
      · exact (Prod.mk.inj he.symm).2
      · exact absurd (List.mem_map.mpr ⟨(a, b'), h2', rfl⟩) hnd.1
    · rcases List.mem_cons.mp h2 with rfl | h2'
      · exact absurd (List.mem_map.mpr ⟨(a, b), h1', rfl⟩) hnd.1
      · exact ih hnd.2 h1' h2'

/-- `scan_for_cr` as a filter over the file enumeration. -/
theorem scan_for_cr_eq (root : FSForest) :
    scan_for_cr root = (filesOf root).filterMap (fun x =>
      if scanExt (lastName x.1) && hasCR x.2 then some (x.1, stripCR x.2) else none) := by
  rw [scan_for_cr, scanWalk_eq]
  simp only [List.nil_append]

theorem find?_filterMap_none (T : List (List String × Bytes)) (p : List String)
    (hp : p ∉ T.map Prod.fst) :
    ((T.filterMap (fun x =>
        if scanExt (lastName x.1) && hasCR x.2 then some (x.1, stripCR x.2) else none)).find?
      (fun x => decide (x.1 = p))) = none := by
  rw [List.find?_eq_none]
  intro x hx
  obtain ⟨y, hy, hgy⟩ := List.mem_filterMap.mp hx
  by_cases hc : scanExt (lastName y.1) && hasCR y.2
  · rw [if_pos hc] at hgy
    have hfst : x.1 = y.1 := by rw [← Option.some.inj hgy]
    simp only [decide_eq_true_eq]
    intro hxp
    exact hp (List.mem_map.mpr ⟨y, hy, by rw [← hfst, hxp]⟩)
  · rw [if_neg hc] at hgy
    cases hgy

/-- The `next(... if orig == file_path)` lookup over the scan's substitution
list: with unique paths it yields the stripped content exactly for a
CR-bearing scanned file. -/
theorem find?_scanTemps (L : List (List String × Bytes)) (hnd : (L.map Prod.fst).Nodup)
    (p : List String) (c : Bytes) (hpc : (p, c) ∈ L) :
    ((L.filterMap (fun x =>
        if scanExt (lastName x.1) && hasCR x.2 then some (x.1, stripCR x.2) else none)).find?
      (fun x => decide (x.1 = p))) =
      if scanExt (lastName p) && hasCR c then some (p, stripCR c) else none := by
  induction L with
  | nil => cases hpc
  | cons y T ih =>
    obtain ⟨q, b⟩ := y
    simp only [List.map_cons, List.nodup_cons] at hnd
    rcases List.mem_cons.mp hpc with heq | hpc'
    · obtain ⟨rfl, rfl⟩ := Prod.mk.inj heq
      by_cases hc : scanExt (lastName p) && hasCR c
      · simp only [List.filterMap_cons, hc, if_true]
        rw [List.find?_cons_of_pos _ (by simp)]
      · simp only [List.filterMap_cons, hc, Bool.false_eq_true, if_false]
        exact find?_filterMap_none T p hnd.1
    · have hpT : p ∈ T.map Prod.fst := List.mem_map.mpr ⟨(p, c), hpc', rfl⟩
      have hyp : q ≠ p := fun he => hnd.1 (he ▸ hpT)
      by_cases hc : scanExt (lastName q) && hasCR b
      · simp only [List.filterMap_cons, hc, if_true]
        rw [List.find?_cons_of_neg _ (by simpa using hyp)]
        exact ih hnd.2 hpc'
      · simp only [List.filterMap_cons, hc, Bool.false_eq_true, if_false]
        exact ih hnd.2 hpc'

/-- In a tree with separator-free names, every enumerated path has
separator-free segments. -/
theorem namesOk_files (l : FSForest) (h : namesOk l = true) :
    ∀ x ∈ filesOf l, ∀ s ∈ x.1, cleanName s = true := by
  induction l using filesOf.induct with
  | case1 => simp [filesOf]
  | case2 n c rest ih =>
    simp only [namesOk, Bool.and_eq_true] at h
    simp only [filesOf, List.mem_cons]
    rintro x (rfl | hx)
    · intro s hs
      simp only [List.mem_singleton] at hs
      exact hs ▸ h.1
    · exact ih h.2 x hx
  | case3 d cs rest ihcs ihrest =>
    simp only [namesOk, Bool.and_eq_true] at h
    simp only [filesOf, List.mem_append, List.mem_map]
    rintro x (⟨y, hy, rfl⟩ | hx)
    · intro s hs
      rcases List.mem_cons.mp hs with rfl | hs'
      · exact h.1.1
      · exact ihcs h.1.2 y hy s hs'
    · exact ihrest h.2 x hx


/-- The archive written by `pack_package`, entry by entry. -/
theorem pack_archive_eq (root : FSForest) (nm : String) :
    (pack_package root nm).archive = (filesOf root).map (fun x =>
      (joinPath x.1,
        match lookupTemp (scan_for_cr root) x.1 with
        | some t => t
        | none => x.2)) := by
  show packWalk (scan_for_cr root) [] root = _
  rw [packWalk_eq]
  simp only [List.nil_append]

/-- C6 (as claimed): for every file with a scanned extension (`.py`/`.sh`)
whose bytes contain a carriage return, the archive entry under the file's
original relative path holds the file's bytes with every CR byte removed, it
is the only entry at that path, and after packing no temporary normalised
file remains. -/
theorem claim_c6 (root : FSForest) (nm : String) (p : List String) (c : Bytes)
    (hok : namesOk root = true)
    (hnd : ((filesOf root).map Prod.fst).Nodup)
    (hpc : (p, c) ∈ filesOf root)
    (hext : scanExt (lastName p) = true)
    (hcr : hasCR c = true) :
    (joinPath p, stripCR c) ∈ (pack_package root nm).archive ∧
    (∀ b, (joinPath p, b) ∈ (pack_package root nm).archive → b = stripCR c) ∧
    (pack_package root nm).tempsRemaining = [] := by
  have hlook : lookupTemp (scan_for_cr root) p = some (stripCR c) := by
    rw [lookupTemp, scan_for_cr_eq, find?_scanTemps (filesOf root) hnd p c hpc,
      if_pos (by rw [hext, hcr]; rfl)]
    rfl
  refine ⟨?_, ?_, ?_⟩
  · rw [pack_archive_eq]
    refine List.mem_map.mpr ⟨(p, c), hpc, ?_⟩
    simp only [hlook]
  · intro b hb
    rw [pack_archive_eq] at hb
    obtain ⟨x, hx, hfx⟩ := List.mem_map.mp hb
    obtain ⟨q, cb⟩ := x
    obtain ⟨h1, h2⟩ := Prod.mk.inj hfx
    have hq : q = p :=
      joinPath_inj q p (filesOf_ne_nil root (q, cb) hx) (filesOf_ne_nil root (p, c) hpc)
        (namesOk_files root hok (q, cb) hx) (namesOk_files root hok (p, c) hpc) h1
    subst hq
    rw [hlook] at h2
    exact h2.symm
  · show (scan_for_cr root).filter (fun t => decide (t ∉ scan_for_cr root)) = []
    rw [List.filter_eq_nil_iff]
    intro a ha
    simp [ha]

/-- C6 witness: the theorem applied at a concrete tree whose `run.py` holds a
carriage return. -/
theorem claim_c6_witness :
    (joinPath ["run.py"], stripCR [97, 13, 98]) ∈
      (pack_package (forest [.file "run.py" [97, 13, 98], .file "data.bin" [13]]) "app").archive ∧
    (pack_package (forest [.file "run.py" [97, 13, 98], .file "data.bin" [13]])
        "app").tempsRemaining = [] :=
  ⟨(claim_c6 (forest [.file "run.py" [97, 13, 98], .file "data.bin" [13]]) "app" ["run.py"]
      [97, 13, 98] (by decide) (by decide) (by decide) (by decide) (by decide)).1,
   (claim_c6 (forest [.file "run.py" [97, 13, 98], .file "data.bin" [13]]) "app" ["run.py"]
      [97, 13, 98] (by decide) (by decide) (by decide) (by decide) (by decide)).2.2⟩

/-- C7 (as claimed): a file whose bytes contain no carriage return is
archived byte-identical (uniquely so at its path) and is unmapped by the
normalisation scan; every substitution the scan records belongs to a
CR-bearing scanned file and carries that file's stripped bytes in a separate
temporary object, the tree itself being read-only to the scan. -/
theorem claim_c7 (root : FSForest) (nm : String) (p : List String) (c : Bytes)
    (hok : namesOk root = true)
    (hnd : ((filesOf root).map Prod.fst).Nodup)
    (hpc : (p, c) ∈ filesOf root)
    (hcr : hasCR c = false) :
    (joinPath p, c) ∈ (pack_package root nm).archive ∧
    (∀ b, (joinPath p, b) ∈ (pack_package root nm).archive → b = c) ∧
    lookupTemp (scan_for_cr root) p = none ∧
    (∀ q t, (q, t) ∈ scan_for_cr root →
       ∃ c', (q, c') ∈ filesOf root ∧ scanExt (lastName q) = true ∧ hasCR c' = true ∧
         t = stripCR c') := by
  have hlook : lookupTemp (scan_for_cr root) p = none := by
    rw [lookupTemp, scan_for_cr_eq, find?_scanTemps (filesOf root) hnd p c hpc,
      if_neg (by rw [hcr]; simp)]
    rfl
  refine ⟨?_, ?_, hlook, ?_⟩
  · rw [pack_archive_eq]
    refine List.mem_map.mpr ⟨(p, c), hpc, ?_⟩
    simp only [hlook]
  · intro b hb
    rw [pack_archive_eq] at hb
    obtain ⟨x, hx, hfx⟩ := List.mem_map.mp hb
    obtain ⟨q, cb⟩ := x
    obtain ⟨h1, h2⟩ := Prod.mk.inj hfx
    have hq : q = p :=
      joinPath_inj q p (filesOf_ne_nil root (q, cb) hx) (filesOf_ne_nil root (p, c) hpc)
        (namesOk_files root hok (q, cb) hx) (namesOk_files root hok (p, c) hpc) h1
    rw [hq] at hx h2
    rw [hlook] at h2
    have hcb : cb = c := nodup_fst_eq (filesOf root) hnd p cb c hx hpc
    rw [← h2, hcb]
  · intro q t hqt
    rw [scan_for_cr_eq] at hqt
    obtain ⟨y, hy, hgy⟩ := List.mem_filterMap.mp hqt
    by_cases hc : scanExt (lastName y.1) && hasCR y.2
    · rw [if_pos hc] at hgy
      obtain ⟨hq1, hq2⟩ := Prod.mk.inj (Option.some.inj hgy)
      simp only [Bool.and_eq_true] at hc
      exact ⟨y.2, by rw [← hq1]; exact (by simpa using hy), by rw [← hq1]; exact hc.1, hc.2,
        hq2.symm⟩
    · rw [if_neg hc] at hgy
      cases hgy

/-- C7 witness: the theorem applied at a concrete tree with a CR-free file. -/
theorem claim_c7_witness :
    (joinPath ["notes.txt"], [97, 98]) ∈
      (pack_package (forest [.file "notes.txt" [97, 98], .file "run.py" [97, 13]]) "app").archive ∧
    lookupTemp (scan_for_cr (forest [.file "notes.txt" [97, 98], .file "run.py" [97, 13]]))
      ["notes.txt"] = none :=
  ⟨(claim_c7 (forest [.file "notes.txt" [97, 98], .file "run.py" [97, 13]]) "app" ["notes.txt"]
      [97, 98] (by decide) (by decide) (by decide) (by decide)).1,
   (claim_c7 (forest [.file "notes.txt" [97, 98], .file "run.py" [97, 13]]) "app" ["notes.txt"]
      [97, 98] (by decide) (by decide) (by decide) (by decide)).2.2.1⟩


/-!  Claim C2. -/

/-- C2 (refuted as stated): with a mismatched section name the run does fail
fatally with no artifact, but not "before touching the METADATA folder": when
METADATA is absent it is created (by the pre-loop `os.makedirs`) before the
name validation runs. -/
theorem claim_c2_counterexample :
    (package_application none (fun _ => "u") (fun _ => "d") "bar" (forest [.file "a.txt" []])
        [⟨"foo", some "u", "v", "n", 1, 0, none, 7, 0, true, false, none, none⟩]).err
      = some PkgError.assertionError ∧
    (package_application none (fun _ => "u") (fun _ => "d") "bar" (forest [.file "a.txt" []])
        [⟨"foo", some "u", "v", "n", 1, 0, none, 7, 0, true, false, none, none⟩]).artifacts = [] ∧
    hasDir "METADATA" (forest [.file "a.txt" []]) = false ∧
    hasDir "METADATA"
      (package_application none (fun _ => "u") (fun _ => "d") "bar" (forest [.file "a.txt" []])
        [⟨"foo", some "u", "v", "n", 1, 0, none, 7, 0, true, false, none, none⟩]).root = true := by
  refine ⟨rfl, rfl, rfl, rfl⟩

/-- C2 (corrected): when the first descriptor section's name differs from the
app root's basename, the run fails with the assertion error, produces no
artifact and no manifest, and never modifies METADATA's contents — the final
tree is the input tree except that an empty METADATA directory is created
first when absent (and exactly the input tree when METADATA already
exists). -/
theorem claim_c2 (pkey : Option PrivateKey) (freshUuid now : Nat → String) (rootName : String)
    (root : FSForest) (sec : IniSection) (rest : List IniSection)
    (h : sec.name ≠ rootName) :
    (package_application pkey freshUuid now rootName root (sec :: rest)).err
        = some PkgError.assertionError ∧
    (package_application pkey freshUuid now rootName root (sec :: rest)).artifacts = [] ∧
    (package_application pkey freshUuid now rootName root (sec :: rest)).manifests = [] ∧
    (package_application pkey freshUuid now rootName root (sec :: rest)).root
        = ensureMetadataDir root ∧
    (hasDir "METADATA" root = true →
      (package_application pkey freshUuid now rootName root (sec :: rest)).root = root) := by
  have hne : ¬ (rootName = sec.name) := fun e => h e.symm
  refine ⟨?_, ?_, ?_, ?_, fun hmd => ?_⟩ <;>
    simp only [package_application, runLoop, runSection, if_neg hne]
  simp [ensureMetadataDir, hmd]

/-- C2 witness: the theorem applied at a concrete tree whose METADATA folder
holds a stale file, which the failed run leaves untouched. -/
theorem claim_c2_witness :
    (package_application none (fun _ => "u") (fun _ => "d") "bar"
        (forest [.dir "METADATA" (forest [.file "stale" [1]]), .file "a.txt" []])
        [⟨"foo", some "u", "v", "n", 1, 0, none, 7, 0, true, false, none, none⟩]).err
      = some PkgError.assertionError ∧
    (package_application none (fun _ => "u") (fun _ => "d") "bar"
        (forest [.dir "METADATA" (forest [.file "stale" [1]]), .file "a.txt" []])
        [⟨"foo", some "u", "v", "n", 1, 0, none, 7, 0, true, false, none, none⟩]).root
      = forest [.dir "METADATA" (forest [.file "stale" [1]]), .file "a.txt" []] :=
  ⟨(claim_c2 none (fun _ => "u") (fun _ => "d") "bar"
      (forest [.dir "METADATA" (forest [.file "stale" [1]]), .file "a.txt" []])
      ⟨"foo", some "u", "v", "n", 1, 0, none, 7, 0, true, false, none, none⟩ [] (by decide)).1,
   (claim_c2 none (fun _ => "u") (fun _ => "d") "bar"
      (forest [.dir "METADATA" (forest [.file "stale" [1]]), .file "a.txt" []])
      ⟨"foo", some "u", "v", "n", 1, 0, none, 7, 0, true, false, none, none⟩ [] (by decide)).2.2.2.2
    (by decide)⟩

/-!  Claim C10. -/

/-- C10 (as claimed): with a missing descriptor or zero sections the run
returns without raising, writes no manifest, no signature and no archive, and
its only effect is creating the empty METADATA directory when absent (the
tree is completely unchanged when METADATA already exists). -/
theorem claim_c10 (pkey : Option PrivateKey) (freshUuid now : Nat → String) (rootName : String)
    (root : FSForest) :
    (package_application pkey freshUuid now rootName root []).err = none ∧
    (package_application pkey freshUuid now rootName root []).manifests = [] ∧
    (package_application pkey freshUuid now rootName root []).artifacts = [] ∧
    (hasDir "METADATA" root = false →
      (package_application pkey freshUuid now rootName root []).root
        = appendTree (.dir "METADATA" .nil) root) ∧
    (hasDir "METADATA" root = true →
      (package_application pkey freshUuid now rootName root []).root = root) := by
  refine ⟨rfl, rfl, rfl, fun h => ?_, fun h => ?_⟩
  · show ensureMetadataDir root = _
    simp [ensureMetadataDir, h]
  · show ensureMetadataDir root = _
    simp [ensureMetadataDir, h]

/-- C10 witness: the theorem applied at a concrete root without METADATA. -/
theorem claim_c10_witness :
    (package_application none (fun _ => "u") (fun _ => "d") "app" (forest [.file "a" [1]]) []).err
      = none ∧
    (package_application none (fun _ => "u") (fun _ => "d") "app" (forest [.file "a" [1]]) []).root
      = appendTree (.dir "METADATA" .nil) (forest [.file "a" [1]]) :=
  ⟨(claim_c10 none (fun _ => "u") (fun _ => "d") "app" (forest [.file "a" [1]])).1,
   (claim_c10 none (fun _ => "u") (fun _ => "d") "app" (forest [.file "a" [1]])).2.2.2.1
     (by decide)⟩

/-!  Claim C3. -/

/-- C3 (as claimed): uuid resolution — a descriptor uuid is reused verbatim
in the manifest; an absent uuid with no signing key is replaced by the fresh
random identifier of that iteration; an absent uuid with a signing key
aborts the run with the re-raised `KeyError` before any artifact or manifest
is produced. -/
theorem claim_c3 :
    (∀ (pkey : Option PrivateKey) (freshUuid now : Nat → String) (rootName : String)
        (root : FSForest) (sec : IniSection) (rest : List IniSection) (u0 : String),
        sec.name = rootName → sec.uuid = some u0 →
        ((package_application pkey freshUuid now rootName root (sec :: rest)).manifests.head?).map
          (fun m => m.app.uuid) = some u0) ∧
    (∀ (freshUuid now : Nat → String) (rootName : String) (root : FSForest)
        (sec : IniSection) (rest : List IniSection),
        sec.name = rootName → sec.uuid = none →
        ((package_application none freshUuid now rootName root (sec :: rest)).manifests.head?).map
          (fun m => m.app.uuid) = some (freshUuid 0)) ∧
    (∀ (k : PrivateKey) (freshUuid now : Nat → String) (rootName : String) (root : FSForest)
        (sec : IniSection) (rest : List IniSection),
        sec.name = rootName → sec.uuid = none →
        (package_application (some k) freshUuid now rootName root (sec :: rest)).err
            = some PkgError.keyErrorUuid ∧
        (package_application (some k) freshUuid now rootName root (sec :: rest)).artifacts = [] ∧
        (package_application (some k) freshUuid now rootName root (sec :: rest)).manifests = []) := by
  refine ⟨?_, ?_, ?_⟩
  · intro pkey fu nw rootName root sec rest u0 hname huuid
    have hpos : rootName = sec.name := hname.symm
    simp only [package_application, runLoop, runSection, if_pos hpos, huuid]
    rfl
  · intro fu nw rootName root sec rest hname huuid
    have hpos : rootName = sec.name := hname.symm
    simp only [package_application, runLoop, runSection, if_pos hpos, huuid]
    rfl
  · intro k fu nw rootName root sec rest hname huuid
    have hpos : rootName = sec.name := hname.symm
    simp only [package_application, runLoop, runSection, if_pos hpos, huuid]
    exact ⟨trivial, trivial, trivial⟩

/-- C3 witness: all three branches applied at concrete runs. -/
theorem claim_c3_witness :
    ((package_application none (fun _ => "fresh-uuid") (fun _ => "d") "app"
        (forest [.file "x" [1]])
        [⟨"app", some "uu-1", "v", "n", 1, 0, none, 7, 0, true, false, none, none⟩]).manifests.head?).map
      (fun m => m.app.uuid) = some "uu-1" ∧
    ((package_application none (fun _ => "fresh-uuid") (fun _ => "d") "app"
        (forest [.file "x" [1]])
        [⟨"app", none, "v", "n", 1, 0, none, 7, 0, true, false, none, none⟩]).manifests.head?).map
      (fun m => m.app.uuid) = some "fresh-uuid" ∧
    (package_application (some ⟨fun b => b⟩) (fun _ => "fresh-uuid") (fun _ => "d") "app"
        (forest [.file "x" [1]])
        [⟨"app", none, "v", "n", 1, 0, none, 7, 0, true, false, none, none⟩]).err
      = some PkgError.keyErrorUuid :=
  ⟨claim_c3.1 none (fun _ => "fresh-uuid") (fun _ => "d") "app" (forest [.file "x" [1]])
      ⟨"app", some "uu-1", "v", "n", 1, 0, none, 7, 0, true, false, none, none⟩ [] "uu-1" rfl rfl,
   claim_c3.2.1 (fun _ => "fresh-uuid") (fun _ => "d") "app" (forest [.file "x" [1]])
      ⟨"app", none, "v", "n", 1, 0, none, 7, 0, true, false, none, none⟩ [] rfl rfl,
   (claim_c3.2.2 ⟨fun b => b⟩ (fun _ => "fresh-uuid") (fun _ => "d") "app" (forest [.file "x" [1]])
      ⟨"app", none, "v", "n", 1, 0, none, 7, 0, true, false, none, none⟩ [] rfl rfl).1⟩

/-!  Claim C8: supporting lemmas and the claim. -/


/-- A key of `hash_dir` is the joined path of some file of the hashed tree. -/
theorem hash_dir_key_src (rootName : String) (T : FSForest) (k : String)
    (hk : k ∈ (hash_dir rootName T).map Prod.fst) :
    ∃ p c, (p, c) ∈ filesOf T ∧ k = joinPath p := by
  obtain ⟨⟨k', v⟩, hkv, hfst⟩ := List.mem_map.mp hk
  rw [hash_dir, hashWalk_eq] at hkv
  obtain ⟨x, hx, hfx⟩ := List.mem_filterMap.mp hkv
  by_cases hc : !startsWithDot (lastName x.1) && !startsWithDot (parentOf rootName x.1)
  · rw [if_pos hc] at hfx
    obtain ⟨h1, _⟩ := Prod.mk.inj (Option.some.inj hfx)
    exact ⟨x.1, x.2, hx, by rw [← hfst, ← h1]; simp⟩
  · rw [if_neg hc] at hfx
    cases hfx

/-- After `clean_manifest_folder`, no file lives strictly inside a top-level
`METADATA` directory. -/
theorem clean_manifest_files (T : FSForest) :
    ∀ y ys c, ("METADATA" :: y :: ys, c) ∉ filesOf (clean_manifest_folder T) := by
  induction T using clean_manifest_folder.induct with
  | case1 =>
    intro y ys c h
    simp only [clean_manifest_folder, filesOf] at h
    cases h
  | case2 cs rest ih =>
    intro y ys c h
    have he : clean_manifest_folder (FSForest.cons (FSTree.dir "METADATA" cs) rest)
        = FSForest.cons (FSTree.dir "METADATA" FSForest.nil) (clean_manifest_folder rest) := by
      simp [clean_manifest_folder]
    rw [he] at h
    simp only [filesOf, List.mem_append, List.mem_map] at h
    rcases h with ⟨x, hx, _⟩ | h
    · simp [filesOf] at hx
    · exact ih y ys c h
  | case3 d cs rest hne ih =>
    intro y ys c h
    have he : clean_manifest_folder (FSForest.cons (FSTree.dir d cs) rest)
        = FSForest.cons (FSTree.dir d cs) (clean_manifest_folder rest) := by
      simp only [clean_manifest_folder, if_neg hne]
    rw [he] at h
    simp only [filesOf, List.mem_append, List.mem_map] at h
    rcases h with ⟨x, hx, hxe⟩ | h
    · exact hne (List.cons.inj (Prod.mk.inj hxe).1).1
    · exact ih y ys c h
  | case4 t rest hnd ih =>
    intro y ys c h
    cases t with
    | file n cb =>
      have he : clean_manifest_folder (FSForest.cons (FSTree.file n cb) rest)
          = FSForest.cons (FSTree.file n cb) (clean_manifest_folder rest) := by
        simp [clean_manifest_folder]
      rw [he] at h
      simp only [filesOf, List.mem_cons] at h
      rcases h with he2 | h
      · cases (List.cons.inj (Prod.mk.inj he2).1).2
      · exact ih y ys c h
    | dir d cs => exact absurd rfl (hnd d cs)

/-- `clean_bytecode_files` only removes files. -/
theorem clean_bytecode_files_subset (T : FSForest) :
    ∀ x, x ∈ filesOf (clean_bytecode_files T) → x ∈ filesOf T := by
  induction T using clean_bytecode_files.induct with
  | case1 => intro x h; exact h
  | case2 n cb rest hm ih =>
    intro x h
    rw [show clean_bytecode_files (FSForest.cons (FSTree.file n cb) rest)
        = clean_bytecode_files rest by simp only [clean_bytecode_files, if_pos hm]] at h
    exact List.mem_cons_of_mem _ (ih x h)
  | case3 n cb rest hm ih =>
    intro x h
    rw [show clean_bytecode_files (FSForest.cons (FSTree.file n cb) rest)
        = FSForest.cons (FSTree.file n cb) (clean_bytecode_files rest) by
      simp only [clean_bytecode_files, if_neg hm]] at h
    simp only [filesOf, List.mem_cons] at h ⊢
    rcases h with he | h
    · exact Or.inl he
    · exact Or.inr (ih x h)
  | case4 d cs rest hm ih =>
    intro x h
    rw [show clean_bytecode_files (FSForest.cons (FSTree.dir d cs) rest)
        = clean_bytecode_files rest by simp only [clean_bytecode_files, if_pos hm]] at h
    simp only [filesOf, List.mem_append]
    exact Or.inr (ih x h)
  | case5 d cs rest hm ihcs ihrest =>
    intro x h
    rw [show clean_bytecode_files (FSForest.cons (FSTree.dir d cs) rest)
        = FSForest.cons (FSTree.dir d (clean_bytecode_files cs)) (clean_bytecode_files rest) by
      simp only [clean_bytecode_files, if_neg hm]] at h
    simp only [filesOf, List.mem_append, List.mem_map] at h ⊢
    rcases h with ⟨y, hy, hye⟩ | h
    · exact Or.inl ⟨y, ihcs y hy, hye⟩
    · exact Or.inr (ihrest x h)

theorem namesOk_clean_manifest (T : FSForest) (h : namesOk T = true) :
    namesOk (clean_manifest_folder T) = true := by
  induction T using clean_manifest_folder.induct with
  | case1 => exact h
  | case2 cs rest ih =>
    simp only [namesOk, Bool.and_eq_true] at h
    have he : clean_manifest_folder (FSForest.cons (FSTree.dir "METADATA" cs) rest)
        = FSForest.cons (FSTree.dir "METADATA" FSForest.nil) (clean_manifest_folder rest) := by
      simp [clean_manifest_folder]
    rw [he]
    simp only [namesOk, Bool.and_eq_true]
    exact ⟨⟨h.1.1, trivial⟩, ih h.2⟩
  | case3 d cs rest hne ih =>
    simp only [namesOk, Bool.and_eq_true] at h
    have he : clean_manifest_folder (FSForest.cons (FSTree.dir d cs) rest)
        = FSForest.cons (FSTree.dir d cs) (clean_manifest_folder rest) := by
      simp only [clean_manifest_folder, if_neg hne]
    rw [he]
    simp only [namesOk, Bool.and_eq_true]
    exact ⟨h.1, ih h.2⟩
  | case4 t rest hnd ih =>
    cases t with
    | file n cb =>
      simp only [namesOk, Bool.and_eq_true] at h
      have he : clean_manifest_folder (FSForest.cons (FSTree.file n cb) rest)
          = FSForest.cons (FSTree.file n cb) (clean_manifest_folder rest) := by
        simp [clean_manifest_folder]
      rw [he]
      simp only [namesOk, Bool.and_eq_true]
      exact ⟨h.1, ih h.2⟩
    | dir d cs => exact absurd rfl (hnd d cs)

theorem namesOk_clean_bytecode (T : FSForest) (h : namesOk T = true) :
    namesOk (clean_bytecode_files T) = true := by
  induction T using clean_bytecode_files.induct with
  | case1 => exact h
  | case2 n cb rest hm ih =>
    simp only [namesOk, Bool.and_eq_true] at h
    rw [show clean_bytecode_files (FSForest.cons (FSTree.file n cb) rest)
        = clean_bytecode_files rest by simp only [clean_bytecode_files, if_pos hm]]
    exact ih h.2
  | case3 n cb rest hm ih =>
    simp only [namesOk, Bool.and_eq_true] at h
    rw [show clean_bytecode_files (FSForest.cons (FSTree.file n cb) rest)
        = FSForest.cons (FSTree.file n cb) (clean_bytecode_files rest) by
      simp only [clean_bytecode_files, if_neg hm]]
    simp only [namesOk, Bool.and_eq_true]
    exact ⟨h.1, ih h.2⟩
  | case4 d cs rest hm ih =>
    simp only [namesOk, Bool.and_eq_true] at h
    rw [show clean_bytecode_files (FSForest.cons (FSTree.dir d cs) rest)
        = clean_bytecode_files rest by simp only [clean_bytecode_files, if_pos hm]]
    exact ih h.2
  | case5 d cs rest hm ihcs ihrest =>
    simp only [namesOk, Bool.and_eq_true] at h
    rw [show clean_bytecode_files (FSForest.cons (FSTree.dir d cs) rest)
        = FSForest.cons (FSTree.dir d (clean_bytecode_files cs)) (clean_bytecode_files rest) by
      simp only [clean_bytecode_files, if_neg hm]]
    simp only [namesOk, Bool.and_eq_true]
    exact ⟨⟨h.1.1, ihcs h.1.2⟩, ihrest h.2⟩

theorem namesOk_upsertFile (fname : String) (content : Bytes) (T : FSForest)
    (h : namesOk T = true) (hf : cleanName fname = true) :
    namesOk (upsertFile fname content T) = true := by
  induction T using upsertFile.induct fname content with
  | case1 =>
    simp only [upsertFile, namesOk, Bool.and_eq_true]
    exact ⟨hf, trivial⟩
  | case2 cb rest =>
    simp only [namesOk, Bool.and_eq_true] at h
    rw [show upsertFile fname content (FSForest.cons (FSTree.file fname cb) rest)
        = FSForest.cons (FSTree.file fname content) rest by
      simp [upsertFile]]
    simp only [namesOk, Bool.and_eq_true]
    exact ⟨h.1, h.2⟩
  | case3 n cb rest hne ih =>
    simp only [namesOk, Bool.and_eq_true] at h
    rw [show upsertFile fname content (FSForest.cons (FSTree.file n cb) rest)
        = FSForest.cons (FSTree.file n cb) (upsertFile fname content rest) by
      simp only [upsertFile, if_neg hne]]
    simp only [namesOk, Bool.and_eq_true]
    exact ⟨h.1, ih h.2⟩
  | case4 t rest hnd ih =>
    cases t with
    | file n cb => exact absurd rfl (hnd n cb)
    | dir d cs =>
      simp only [namesOk, Bool.and_eq_true] at h
      rw [show upsertFile fname content (FSForest.cons (FSTree.dir d cs) rest)
          = FSForest.cons (FSTree.dir d cs) (upsertFile fname content rest) from rfl]
      simp only [namesOk, Bool.and_eq_true]
      exact ⟨h.1, ih h.2⟩

theorem namesOk_writeMetadataFile (fname : String) (content : Bytes) (T : FSForest)
    (h : namesOk T = true) (hf : cleanName fname = true) :
    namesOk (writeMetadataFile fname content T) = true := by
  induction T using writeMetadataFile.induct fname content with
  | case1 => exact h
  | case2 cs rest =>
    simp only [namesOk, Bool.and_eq_true] at h
    rw [show writeMetadataFile fname content (FSForest.cons (FSTree.dir "METADATA" cs) rest)
        = FSForest.cons (FSTree.dir "METADATA" (upsertFile fname content cs)) rest by
      simp [writeMetadataFile]]
    simp only [namesOk, Bool.and_eq_true]
    exact ⟨⟨h.1.1, namesOk_upsertFile fname content cs h.1.2 hf⟩, h.2⟩
  | case3 d cs rest hne ih =>
    simp only [namesOk, Bool.and_eq_true] at h
    rw [show writeMetadataFile fname content (FSForest.cons (FSTree.dir d cs) rest)
        = FSForest.cons (FSTree.dir d cs) (writeMetadataFile fname content rest) by
      simp only [writeMetadataFile, if_neg hne]]
    simp only [namesOk, Bool.and_eq_true]
    exact ⟨h.1, ih h.2⟩
  | case4 t rest hnd ih =>
    cases t with
    | file n cb =>
      simp only [namesOk, Bool.and_eq_true] at h
      rw [show writeMetadataFile fname content (FSForest.cons (FSTree.file n cb) rest)
          = FSForest.cons (FSTree.file n cb) (writeMetadataFile fname content rest) from rfl]
      simp only [namesOk, Bool.and_eq_true]
      exact ⟨h.1, ih h.2⟩
    | dir d cs => exact absurd rfl (hnd d cs)

theorem namesOk_appendMetadata (T : FSForest) (h : namesOk T = true) :
    namesOk (appendTree (FSTree.dir "METADATA" FSForest.nil) T) = true := by
  induction T using namesOk.induct with
  | case1 => decide
  | case2 n cb rest ih =>
    simp only [namesOk, Bool.and_eq_true] at h
    simp only [appendTree, namesOk, Bool.and_eq_true]
    exact ⟨h.1, ih h.2⟩
  | case3 d cs rest ihcs ihrest =>
    simp only [namesOk, Bool.and_eq_true] at h
    simp only [appendTree, namesOk, Bool.and_eq_true]
    exact ⟨h.1, ihrest h.2⟩

theorem namesOk_ensureMetadataDir (T : FSForest) (h : namesOk T = true) :
    namesOk (ensureMetadataDir T) = true := by
  rw [ensureMetadataDir]
  by_cases hd : hasDir "METADATA" T
  · rw [if_pos hd]; exact h
  · rw [if_neg hd]; exact namesOk_appendMetadata T h

theorem hash_dir_no_stale (rootName : String) (T : FSForest) (hok : namesOk T = true)
    (q : List String) (hq : q ≠ [])
    (hclean : ∀ s ∈ ("METADATA" :: q), cleanName s = true) :
    joinPath ("METADATA" :: q) ∉
      (hash_dir rootName (clean_bytecode_files (clean_manifest_folder T))).map Prod.fst := by
  intro hk
  obtain ⟨p, c, hpc, hkey⟩ := hash_dir_key_src rootName _ _ hk
  have hokc : namesOk (clean_bytecode_files (clean_manifest_folder T)) = true :=
    namesOk_clean_bytecode _ (namesOk_clean_manifest _ hok)
  have hpeq : p = "METADATA" :: q :=
    joinPath_inj p ("METADATA" :: q) (filesOf_ne_nil _ (p, c) hpc) (by simp)
      (namesOk_files _ hokc (p, c) hpc) hclean hkey.symm
  rw [hpeq] at hpc
  have hpc2 := clean_bytecode_files_subset _ _ hpc
  cases q with
  | nil => exact hq rfl
  | cons y ys => exact clean_manifest_files T y ys c hpc2

theorem runLoop_no_stale (pkey : Option PrivateKey) (fu nw : Nat → String) (rootName : String)
    (q : List String) (hq : q ≠ [])
    (hclean : ∀ s ∈ ("METADATA" :: q), cleanName s = true) :
    ∀ (secs : List IniSection) (i : Nat) (T : FSForest), namesOk T = true →
      ∀ m ∈ (runLoop pkey fu nw rootName i T secs).manifests,
        joinPath ("METADATA" :: q) ∉ m.app.files.map Prod.fst := by
  intro secs
  induction secs with
  | nil =>
    intro i T hok m hm
    simp [runLoop] at hm
  | cons sec rest ih =>
    intro i T hok m hm
    by_cases hname : rootName = sec.name
    · cases huuid : sec.uuid with
      | some u =>
        simp only [runLoop, runSection, if_pos hname, huuid] at hm
        rcases List.mem_cons.mp hm with rfl | hm'
        · exact hash_dir_no_stale rootName T hok q hq hclean
        · refine ih (i + 1) _ ?_ m hm'
          exact namesOk_writeMetadataFile _ _ _
            (namesOk_writeMetadataFile _ _ _
              (namesOk_clean_bytecode _ (namesOk_clean_manifest _ hok)) (by decide)) (by decide)
      | none =>
        cases pkey with
        | some k =>
          simp only [runLoop, runSection, if_pos hname, huuid] at hm
          simp at hm
        | none =>
          simp only [runLoop, runSection, if_pos hname, huuid] at hm
          rcases List.mem_cons.mp hm with rfl | hm'
          · exact hash_dir_no_stale rootName T hok q hq hclean
          · refine ih (i + 1) _ ?_ m hm'
            exact namesOk_writeMetadataFile _ _ _
              (namesOk_writeMetadataFile _ _ _
                (namesOk_clean_bytecode _ (namesOk_clean_manifest _ hok)) (by decide)) (by decide)
    · simp only [runLoop, runSection, if_neg hname] at hm
      simp at hm

/-- C8 (as claimed): in every packaging run the METADATA folder is emptied
before the file-hash mapping is computed and before the new manifest is
written, so no manifest produced by the run maps the relative path of a file
that was inside METADATA when the iteration began — stale or written by an
earlier section's iteration. -/
theorem claim_c8 (pkey : Option PrivateKey) (freshUuid now : Nat → String) (rootName : String)
    (root : FSForest) (secs : List IniSection) (hok : namesOk root = true)
    (q : List String) (sc : Bytes) (hq : q ≠ [])
    (hst : ("METADATA" :: q, sc) ∈ filesOf root) :
    ∀ m ∈ (package_application pkey freshUuid now rootName root secs).manifests,
      joinPath ("METADATA" :: q) ∉ m.app.files.map Prod.fst := by
  have hclean : ∀ s ∈ ("METADATA" :: q), cleanName s = true :=
    namesOk_files root hok ("METADATA" :: q, sc) hst
  exact runLoop_no_stale pkey freshUuid now rootName q hq hclean secs 0
    (ensureMetadataDir root) (namesOk_ensureMetadataDir root hok)

/-- C8 witness: the theorem applied at a concrete run whose initial METADATA
folder holds a stale file `old.txt`. -/
theorem claim_c8_witness :
    ((package_application none (fun _ => "u") (fun _ => "d") "app"
        (forest [.file "package.ini" [1], .dir "METADATA" (forest [.file "old.txt" [2]])])
        [⟨"app", some "uu", "v", "n", 1, 0, none, 7, 0, true, false, none, none⟩]).manifests.all
      (fun m => decide (joinPath ("METADATA" :: ["old.txt"]) ∉ m.app.files.map Prod.fst)))
    = true := by
  rw [List.all_eq_true]
  intro m hm
  exact decide_eq_true
    (claim_c8 none (fun _ => "u") (fun _ => "d") "app"
      (forest [.file "package.ini" [1], .dir "METADATA" (forest [.file "old.txt" [2]])])
      [⟨"app", some "uu", "v", "n", 1, 0, none, 7, 0, true, false, none, none⟩]
      (by decide) ["old.txt"] [2] (by decide) (by decide) m hm)


/-- C5 witness: the characterisation applied at a concrete tree. -/
theorem claim_c5_witness :
    ("f", file_checksum [120]) ∈ hash_dir "app" (forest [.file "f" [120]]) :=
  (claim_c5 "app" (forest [.file "f" [120]]) "f" (file_checksum [120])).mpr
    ⟨["f"], [120], by decide, by decide, by decide, rfl, rfl⟩

end Pkg
